import Mathlib

/-!
Verification development for the Graph-RAG entity-resolution and traversal core.

The definitions below are a shallow embedding of `entity_extractor.py` and
`traversal_engine.py`.  The external graph store is modelled as a function from
structured query descriptions to result rows; all other behaviour (tokenizing,
n-gram candidate generation, the match cascade, strategy dispatch, subgraph
assembly) is translated directly from the source.
-/

namespace GraphRag

/-- Property maps (`properties(n)` in the store rows, plain dicts in the code)
are modelled as association lists from attribute name to scalar value. -/
abbrev Props := List (String × String)

/-- A graph node as produced by `_row_to_node` / consumed by `traverse`:
`{id, label, name, properties}`. -/
structure Node where
  id : String
  label : String
  name : String
  properties : Props
deriving DecidableEq

/-- A relationship entry of the assembled subgraph:
`{source_id, target_id, type, properties}`. -/
structure Edge where
  source_id : String
  target_id : String
  type : String
  properties : Props
deriving DecidableEq

/-! ## Entity extractor (`entity_extractor.py`) -/

/-- Characters kept by the normalisation step `re.sub(r"[^a-zA-Z0-9\s\-]", " ", query)`:
letters, digits, whitespace and hyphen survive, everything else becomes a space. -/
def isKept (c : Char) : Bool := c.isAlphanum || c.isWhitespace || c = '-'

/-- One character of the cleaning + lowering pipeline: kept characters are
lowercased (`.lower()`), all others are replaced by a space (`re.sub`). -/
def normalizeChar (c : Char) : Char := if isKept c then c.toLower else ' '

/-- Whitespace split of a character list, as Python's `str.split()`:
runs of non-whitespace characters become tokens; empty tokens never appear.
`acc` holds the (reversed) current run. -/
def splitWsAux : List Char → List Char → List (List Char)
  | [], acc => if acc = [] then [] else [acc.reverse]
  | c :: cs, acc =>
    if c.isWhitespace then
      if acc = [] then splitWsAux cs [] else acc.reverse :: splitWsAux cs []
    else splitWsAux cs (c :: acc)

/-- `cleaned.lower().split()` of `_extract_keywords`. -/
def tokenize (q : String) : List String :=
  (splitWsAux (q.data.map normalizeChar) []).map (fun cs => String.mk cs)

/-- Default stop-word list `_DEFAULT_STOP_WORDS` from the source. -/
def defaultStopWords : List String :=
  ["a", "an", "the", "is", "are", "was", "were", "be", "been", "being",
   "have", "has", "had", "do", "does", "did", "will", "would", "could",
   "should", "may", "might", "shall", "can", "need", "dare", "ought",
   "used", "to", "of", "in", "on", "at", "by", "for", "with", "about",
   "against", "between", "into", "through", "during", "before", "after",
   "above", "below", "from", "up", "down", "out", "off", "over", "under",
   "again", "further", "then", "once", "and", "but", "or", "nor", "so",
   "yet", "both", "either", "neither", "not", "only", "own", "same",
   "than", "too", "very", "just", "because", "as", "until", "while",
   "if", "when", "where", "how", "what", "which", "who", "whom", "that",
   "this", "these", "those", "i", "me", "my", "myself", "we", "our",
   "you", "your", "he", "him", "his", "she", "her", "it", "its", "they",
   "them", "their", "tell", "give", "show", "find", "get", "let",
   "make", "know", "see", "take", "come", "go", "say", "ask"]

/-- ASCII lowering of a string (Python `str.lower()` on the inputs we model). -/
def strLower (s : String) : String := String.mk (s.data.map Char.toLower)

/-- Constructor-time stop-word set: the default list extended with the
lowercased caller-supplied words. -/
def mkStopWords (extra : List String) : List String :=
  defaultStopWords ++ extra.map strLower

/-- Stop-word filtering with fall-back of `_extract_keywords`: if removal
empties the token list, the unfiltered tokens are used instead. -/
def contentTokens (sw : List String) (q : String) : List String :=
  let tokens := tokenize q
  let content := tokens.filter (fun t => t ∉ sw)
  if content = [] then tokens else content

/-- `" ".join(tokens)`. -/
def joinTokens : List String → String
  | [] => ""
  | [t] => t
  | t :: rest => t ++ " " ++ joinTokens rest

/-- The contiguous n-grams of a given size over the token list, in position
order; mirrors `for i in range(len(content_tokens) - n + 1)` with the slice
`content_tokens[i : i + n]`. -/
def nGrams (toks : List String) (n : Nat) : List String :=
  (List.range (toks.length + 1 - n)).map (fun i => joinTokens ((toks.drop i).take n))

/-- First-seen deduplication threading the `seen` set through, as the nested
candidate loop of `_extract_keywords` does. -/
def dedupFirstAux (seen : List String) : List String → List String
  | [] => []
  | p :: ps => if p ∈ seen then dedupFirstAux seen ps else p :: dedupFirstAux (p :: seen) ps

/-- `_extract_keywords`: candidate phrases as n-grams of sizes 3, 2, 1 (longest
first), deduplicated with first-seen order across the sizes. -/
def extractKeywords (sw : List String) (q : String) : List String :=
  let content := contentTokens sw q
  dedupFirstAux [] (nGrams content 3 ++ nGrams content 2 ++ nGrams content 1)

/-- Whether every character of the query is whitespace (`not query.strip()`). -/
def isBlank (q : String) : Bool := q.data.all (fun c => c.isWhitespace)

/-- Number of space characters in a string; an n-gram phrase over space-free
tokens has exactly n-1 of them, which separates the three n-gram blocks. -/
def spaceCount (s : String) : Nat := s.data.countP (fun c => c = ' ')

/-! ### Graph lookup cascade of the extractor

The store is abstracted as a function from structured query descriptions to
the row lists it would return; each query description records exactly the
shape and parameters the corresponding Cypher text carries. -/

/-- Which of the three extractor query templates was issued. -/
inductive EShape
  | exactEq
  | containsSub
  | fuzzySim
deriving DecidableEq

/-- A lookup query issued by the extractor: the template used, the (lowercased)
keyword parameter for the exact/contains stages, the length pre-filter bounds
for the fuzzy stage, and the row limit in the Cypher text. -/
structure EQuery where
  shape : EShape
  keyword : Option String := none
  minLen : Option Nat := none
  maxLen : Option Nat := none
  limit : Nat
deriving DecidableEq

/-- A raw extractor result row: `{id, label, properties}` plus the
`candidate_name` column only the fuzzy query returns. -/
structure ERow where
  id : String
  label : Option String := none
  properties : Option Props := none
  candidate_name : Option String := none
deriving DecidableEq

/-- `_row_to_node`: `props = row.get("properties") or {}`, label defaults to
"Unknown" when the key is missing, name comes from the property map. -/
def rowToNode (row : ERow) : Node :=
  let props := row.properties.getD []
  { id := row.id, label := row.label.getD "Unknown",
    name := (props.lookup "name").getD "", properties := props }

/-- `_exact_match`: case-insensitive equality query, LIMIT 10. -/
def exactMatch (store : EQuery → List ERow) (kw : String) : List Node × EQuery :=
  let q : EQuery := { shape := .exactEq, keyword := some (strLower kw), limit := 10 }
  ((store q).map rowToNode, q)

/-- `_partial_match` in the source: case-insensitive CONTAINS query, LIMIT 10. -/
def substrMatch (store : EQuery → List ERow) (kw : String) : List Node × EQuery :=
  let q : EQuery := { shape := .containsSub, keyword := some (strLower kw), limit := 10 }
  ((store q).map rowToNode, q)

/-- The local scoring loop of `_fuzzy_match`: rows with an empty or missing
`candidate_name` are skipped; the similarity of the lowercased keyword against
the candidate name is kept only at or above the threshold, in row order. -/
def fuzzyScored (sim : String → String → Rat) (thr : Rat) (rows : List ERow)
    (kw : String) : List (Rat × ERow) :=
  rows.filterMap (fun row =>
    let cn := row.candidate_name.getD ""
    if cn = "" then none
    else
      let r := sim (strLower kw) cn
      if thr ≤ r then some (r, row) else none)

/-- Stable insertion of a scored row into a descending-sorted list: the new
element goes before the first element whose score is not larger, matching the
stable `list.sort(key=..., reverse=True)`. -/
def insertDesc (x : Rat × ERow) : List (Rat × ERow) → List (Rat × ERow)
  | [] => [x]
  | y :: ys => if x.1 < y.1 then y :: insertDesc x ys else x :: y :: ys

/-- Stable descending sort by score (`scored.sort(key=lambda x: x[0], reverse=True)`). -/
def sortDesc : List (Rat × ERow) → List (Rat × ERow)
  | [] => []
  | x :: xs => insertDesc x (sortDesc xs)

/-- `_fuzzy_match`: length pre-filter bounds `max(1, k - k//2)` and `k + k//2`,
LIMIT 200, local similarity scoring, stable descending sort, top 5.  Returns
the converted nodes together with the query description it issued. -/
def fuzzyMatch (sim : String → String → Rat) (thr : Rat) (store : EQuery → List ERow)
    (kw : String) : List Node × EQuery :=
  let kwLen := kw.length
  let minLen := max 1 (kwLen - kwLen / 2)
  let maxLen := kwLen + kwLen / 2
  let q : EQuery := { shape := .fuzzySim, minLen := some minLen, maxLen := some maxLen,
                      limit := 200 }
  let rows := store q
  let scored := fuzzyScored sim thr rows kw
  (((sortDesc scored).take 5).map (fun p => rowToNode p.2), q)

/-- Default of the constructor parameter `fuzzy_threshold: float = 0.85`. -/
def defaultFuzzyThreshold : Rat := 85 / 100

/-- `_find_in_graph`: exact, then contains, then (only when the similarity
capability is available and the keyword is longer than 3 characters) fuzzy.
Also returns the queries issued, in order. -/
def findInGraph (fuzzyAvailable : Bool) (sim : String → String → Rat) (thr : Rat)
    (store : EQuery → List ERow) (kw : String) : List Node × List EQuery :=
  let e := exactMatch store kw
  if e.1 ≠ [] then (e.1, [e.2])
  else
    let p := substrMatch store kw
    if p.1 ≠ [] then (p.1, [e.2, p.2])
    else
      if fuzzyAvailable = true ∧ 3 < kw.length then
        let f := fuzzyMatch sim thr store kw
        (f.1, [e.2, p.2, f.2])
      else ([], [e.2, p.2])

/-- Deduplication of resolved nodes by id across keyword candidates, keeping
first-seen order (`seen_ids` loop of `extract_entry_nodes`). -/
def dedupNodes (seen : List String) : List Node → List Node
  | [] => []
  | n :: ns => if n.id ∈ seen then dedupNodes seen ns else n :: dedupNodes (n.id :: seen) ns

/-- `extract_entry_nodes`: empty or whitespace-only queries short-circuit; the
candidates are resolved in order and accumulated with id deduplication. -/
def extractEntryNodes (find : String → List Node) (sw : List String) (q : String) :
    List Node :=
  if q = "" ∨ isBlank q then []
  else dedupNodes [] (((extractKeywords sw q).map find).flatten)

/-! ## Traversal engine (`traversal_engine.py`)

Traversal patterns are the intent-registry entries; every field is optional,
matching the probing `pattern.get(...)` / `pattern[...]` accesses in the code.
The store is again modelled as a function from structured query descriptions
to row lists; each strategy issues exactly the query its Cypher text encodes,
and the descriptions record the parameters that text interpolates. -/

/-- One entry of a `chained` pattern's `"hops"` list.  `relationship` is read
with a subscript (`hop["relationship"]`), so its absence is a key error;
`target_label` is read with `.get`. -/
structure Hop where
  relationship : Option String := none
  target_label : Option String := none
deriving DecidableEq

/-- An intent-registry entry (`self._intent_patterns[intent]`), a JSON object
whose keys the strategies probe individually. -/
structure Pattern where
  strategy : Option String := none
  relationship : Option String := none
  source_label : Option String := none
  target_label : Option String := none
  entry_anchor : Option String := none
  hops : Option (List Hop) := none
  entry_label : Option String := none
  min_hops : Option Nat := none
  max_hops : Option Nat := none
  min_connections : Option Nat := none
deriving DecidableEq

/-- The empty registry entry `{}`; a registry value equal to it is falsy in
`strategy = pattern.get("strategy", "targeted") if pattern else "general"`. -/
def emptyPattern : Pattern := {}

/-- Failure signal of a traversal call: a required configuration key was
missing (Python `KeyError`). -/
inductive TravError
  | keyError (key : String)
deriving DecidableEq

/-- Which strategy's Cypher template a store query was built from. -/
inductive CypherShape
  | targeted
  | chained
  | variableHop
  | shortestPath
  | sharedNeighbor
  | general
deriving DecidableEq

/-- A traversal query as issued to the store: the template used, the `$ids`
parameter, and the parameters interpolated into the Cypher text (relationship
name and anchor for `targeted`, the linear path pattern for `chained`, hop
bounds for the variable-hop templates, `$min_conn` for `shared_neighbor`,
and the row limit). -/
structure QueryCall where
  shape : CypherShape
  ids : List String := []
  relName : Option String := none
  anchor : Option String := none
  matchPattern : Option String := none
  minHops : Option Nat := none
  maxHops : Option Nat := none
  minConn : Option Nat := none
  limit : Option Nat := none
deriving DecidableEq

/-- A flat result row of the shared `_EDGE_RETURN` shape.  Every field is
optional because `_build_subgraph` reads each one with `row.get`. -/
structure Row where
  source_id : Option String := none
  source_label : Option String := none
  source_props : Option Props := none
  rel_type : Option String := none
  rel_props : Option Props := none
  target_id : Option String := none
  target_label : Option String := none
  target_props : Option Props := none
deriving DecidableEq

/-- The store collaborator: executes a traversal query, returning rows. -/
abbrev Store := QueryCall → List Row

/-- The subgraph contract every strategy produces. -/
structure Subgraph where
  nodes : List Node
  relationships : List Edge
  strategy : String
  hop_depth : Nat
deriving DecidableEq

/-- Python string truthiness for an optional id: present and non-empty. -/
def truthyOptStr : Option String → Bool
  | some s => s ≠ ""
  | none => false

/-- `_targeted`: single named relationship; `pattern["relationship"]` is a
required key, labels and anchor are optional. -/
def targetedStrat (store : Store) (entryIds : List String) (p : Pattern) :
    Except TravError (List QueryCall × List Row × Nat) :=
  match p.relationship with
  | none => .error (.keyError "relationship")
  | some relName =>
    let anchor := p.entry_anchor.getD "source"
    let q : QueryCall := { shape := .targeted, ids := entryIds, relName := some relName,
                           anchor := some anchor, limit := some 50 }
    .ok ([q], store q, 1)

/-- The path-pattern tail built by the hop loop of `_chained`:
`-[:REL]->(nI)` or `-[:REL]->(nI:Label)` per hop, with `hop["relationship"]`
a required key and a falsy `target_label` leaving the node unlabelled. -/
def hopTokens : List Hop → Nat → Except TravError String
  | [], _ => .ok ""
  | h :: rest, i =>
    match h.relationship with
    | none => .error (.keyError "relationship")
    | some rel =>
      let j := i + 1
      let label := h.target_label.getD ""
      let node := if label ≠ "" then s!"(n{j}:{label})" else s!"(n{j})"
      match hopTokens rest j with
      | .error e => .error e
      | .ok tail => .ok (s!"-[:{rel}]->" ++ node ++ tail)

/-- `_chained`: `pattern["hops"]` is a required key; the strategy builds one
linear path pattern over the hop list and issues a single query; the hop
depth is the number of configured hops. -/
def chainedStrat (store : Store) (entryIds : List String) (p : Pattern) :
    Except TravError (List QueryCall × List Row × Nat) :=
  match p.hops with
  | none => .error (.keyError "hops")
  | some hops =>
    let entryLabel := p.entry_label.getD ""
    let entryNode := if entryLabel ≠ "" then s!"(n0:{entryLabel})" else "(n0)"
    match hopTokens hops 0 with
    | .error e => .error e
    | .ok tail =>
      let q : QueryCall := { shape := .chained, ids := entryIds,
                             matchPattern := some (entryNode ++ tail), limit := some 100 }
      .ok ([q], store q, hops.length)

/-- `_variable_hop`: `min_hops` defaults to 1 and `max_hops` to 2 via `.get`;
one query bounded by LIMIT 60; the hop depth reported is `max_hops`. -/
def variableHopStrat (store : Store) (entryIds : List String) (p : Pattern) :
    List QueryCall × List Row × Nat :=
  let minH := p.min_hops.getD 1
  let maxH := p.max_hops.getD 2
  let q : QueryCall := { shape := .variableHop, ids := entryIds,
                         minHops := some minH, maxHops := some maxH, limit := some 60 }
  ([q], store q, maxH)

/-- `_shortest_path`: `max_hops` defaults to 6; with fewer than two entry ids
it degrades to `_variable_hop` with `{"min_hops": 1, "max_hops": max_h}`;
otherwise it issues the pairwise `shortestPath` query (LIMIT 20) and reports
`max_hops` as the depth. -/
def shortestPathStrat (store : Store) (entryIds : List String) (p : Pattern) :
    List QueryCall × List Row × Nat :=
  let maxH := p.max_hops.getD 6
  if entryIds.length < 2 then
    variableHopStrat store entryIds { min_hops := some 1, max_hops := some maxH }
  else
    let q : QueryCall := { shape := .shortestPath, ids := entryIds,
                           maxHops := some maxH, limit := some 20 }
    ([q], store q, maxH)

/-- `_shared_neighbor`: the effective `$min_conn` parameter is
`min(pattern.get("min_connections", 2), len(entry_ids))`; hop depth 1. -/
def sharedNeighborStrat (store : Store) (entryIds : List String) (p : Pattern) :
    List QueryCall × List Row × Nat :=
  let minConn := min (p.min_connections.getD 2) entryIds.length
  let q : QueryCall := { shape := .sharedNeighbor, ids := entryIds,
                         minConn := some minConn }
  ([q], store q, 1)

/-- `_general`: undirected one-hop fallback bounded by the configured node
limit. -/
def generalStrat (store : Store) (generalLimit : Nat) (entryIds : List String) :
    List QueryCall × List Row × Nat :=
  let q : QueryCall := { shape := .general, ids := entryIds, limit := some generalLimit }
  ([q], store q, 1)

/-- The `dispatch.get(strategy, self._general)` table of `traverse`: known
strategy names select their implementation, anything else falls back to
`_general`. -/
def runStrategy (store : Store) (generalLimit : Nat) (strategy : String)
    (entryIds : List String) (p : Pattern) :
    Except TravError (List QueryCall × List Row × Nat) :=
  if strategy = "targeted" then targetedStrat store entryIds p
  else if strategy = "chained" then chainedStrat store entryIds p
  else if strategy = "variable_hop" then .ok (variableHopStrat store entryIds p)
  else if strategy = "shortest_path" then .ok (shortestPathStrat store entryIds p)
  else if strategy = "shared_neighbor" then .ok (sharedNeighborStrat store entryIds p)
  else .ok (generalStrat store generalLimit entryIds)

/-! ### Subgraph assembly (`_build_subgraph`) -/

/-- The entry-node seeding loop: every entry node whose id is new is appended,
in the order given; returns the final `seen_ids` set and the seeded list. -/
def seedEntries (seen : List String) : List Node → List String × List Node
  | [] => (seen, [])
  | en :: rest =>
    if en.id ∈ seen then seedEntries seen rest
    else
      let r := seedEntries (en.id :: seen) rest
      (r.1, en :: r.2)

/-- A node built from one side of a row: missing properties become `{}`, a
falsy label becomes "Unknown", the name is read from the property map. -/
def sideNode (nid : String) (labelOpt : Option String) (propsOpt : Option Props) : Node :=
  let props := propsOpt.getD []
  { id := nid,
    label := match labelOpt with
      | some l => if l = "" then "Unknown" else l
      | none => "Unknown",
    name := (props.lookup "name").getD "",
    properties := props }

/-- One endpoint of the per-row loop: a truthy id not yet seen adds a node and
extends the seen set. -/
def addSide (seen : List String) (nidOpt : Option String) (labelOpt : Option String)
    (propsOpt : Option Props) : List String × List Node :=
  match nidOpt with
  | some nid =>
    if nid ≠ "" ∧ nid ∉ seen then (nid :: seen, [sideNode nid labelOpt propsOpt])
    else (seen, [])
  | none => (seen, [])

/-- Both endpoints of a row, source side first. -/
def rowNodes (seen : List String) (row : Row) : List String × List Node :=
  let s := addSide seen row.source_id row.source_label row.source_props
  let t := addSide s.1 row.target_id row.target_label row.target_props
  (t.1, s.2 ++ t.2)

/-- The edge a row contributes (`type` defaults to "RELATED_TO", missing
properties become `{}`). -/
def rowEdgeMk (row : Row) : Edge :=
  { source_id := row.source_id.getD "", target_id := row.target_id.getD "",
    type := row.rel_type.getD "RELATED_TO", properties := row.rel_props.getD [] }

/-- The edge list a row appends: exactly one edge when both endpoint ids are
truthy, nothing otherwise. -/
def rowEdge (row : Row) : List Edge :=
  if truthyOptStr row.source_id && truthyOptStr row.target_id then [rowEdgeMk row]
  else []

/-- The per-row loop of `_build_subgraph`: nodes and edges appended in row
order, threading the seen-id set. -/
def processRows (seen : List String) : List Row → List Node × List Edge
  | [] => ([], [])
  | row :: rest =>
    let rn := rowNodes seen row
    let r := processRows rn.1 rest
    (rn.2 ++ r.1, rowEdge row ++ r.2)

/-- `_build_subgraph`: entry nodes are seeded first, then rows contribute
nodes (id-deduplicated against everything before) and edges (one per
well-formed row, never deduplicated). -/
def buildSubgraph (rows : List Row) (entryNodes : List Node) : List Node × List Edge :=
  let s := seedEntries [] entryNodes
  let pr := processRows s.1 rows
  (s.2 ++ pr.1, pr.2)

/-- `traverse`: empty entry lists short-circuit to the canonical empty
subgraph before the registry is consulted or any query issued; otherwise the
pattern is looked up, the strategy dispatched, and the assembled subgraph is
tagged with the strategy name and hop depth.  The second component lists the
store queries the call issued, in order. -/
def traverse (store : Store) (patterns : List (String × Pattern)) (generalLimit : Nat)
    (entryNodes : List Node) (intent : String) :
    Except TravError Subgraph × List QueryCall :=
  if entryNodes = [] then
    (.ok { nodes := [], relationships := [], strategy := "none", hop_depth := 0 }, [])
  else
    let entryIds := entryNodes.map Node.id
    let pat := patterns.lookup intent
    let strategy :=
      match pat with
      | some p => if p = emptyPattern then "general" else p.strategy.getD "targeted"
      | none => "general"
    let effPat := pat.getD emptyPattern
    match runStrategy store generalLimit strategy entryIds effPat with
    | .error e => (.error e, [])
    | .ok (qs, rows, hop) =>
      let base := buildSubgraph rows entryNodes
      (.ok { nodes := base.1, relationships := base.2,
             strategy := strategy, hop_depth := hop }, qs)

/-- The engine object: the registry loaded at construction, the general node
limit, and the store connector.  `traverse` reads this state and never writes
it. -/
structure Engine where
  patterns : List (String × Pattern)
  generalLimit : Nat
  store : Store

/-- A `traverse` method call on an engine value: the result together with the
engine state after the call.  The method only reads `self`, so the state
passed out is the state passed in. -/
def traverseCall (e : Engine) (entryNodes : List Node) (intent : String) :
    (Except TravError Subgraph × List QueryCall) × Engine :=
  (traverse e.store e.patterns e.generalLimit entryNodes intent, e)

/-! ## Concrete sample data used to exercise the theorems -/

/-- A sample entry node. -/
def sampleEntryA : Node :=
  { id := "a1", label := "Drug", name := "Aspirin", properties := [("name", "Aspirin")] }

/-- A second sample entry node. -/
def sampleEntryB : Node :=
  { id := "b1", label := "Drug", name := "Ibuprofen", properties := [("name", "Ibuprofen")] }

/-- A well-formed store row linking `a1` to a new node `n1`. -/
def sampleRow : Row :=
  { source_id := some "a1", source_label := some "Drug",
    source_props := some [("name", "Aspirin")], rel_type := some "CAUSES",
    rel_props := some [], target_id := some "n1", target_label := some "Symptom",
    target_props := some [("name", "Nausea")] }

/-- A degenerate row with no `source_id`, as `row.get("source_id")` would see
for a malformed store result. -/
def badRow : Row := { target_id := some "t1", rel_type := some "R" }

/-- A `shortest_path` registry entry with an explicit hop bound. -/
def spPattern : Pattern := { strategy := some "shortest_path", max_hops := some 4 }

/-- A `shared_neighbor` registry entry. -/
def snPattern : Pattern := { strategy := some "shared_neighbor", min_connections := some 3 }

/-- A `variable_hop` registry entry omitting both hop bounds. -/
def vhPattern : Pattern := { strategy := some "variable_hop" }

/-- A malformed `chained` registry entry missing its `"hops"` list. -/
def chainedNoHops : Pattern := { strategy := some "chained", entry_label := some "Drug" }

/-- A sample engine whose registry holds a malformed chained entry next to a
well-formed one. -/
def sampleEngine : Engine :=
  { patterns := [("mechanism", chainedNoHops), ("connect", spPattern)],
    generalLimit := 30, store := fun _ => [] }

/-- The subgraph the general fallback produces from `sampleEntryA` and an
empty store. -/
def sampleSubgraphGeneral : Subgraph :=
  { nodes := [sampleEntryA], relationships := [], strategy := "general", hop_depth := 1 }

/-- The query description the general fallback issues for `sampleEntryA`. -/
def sampleGeneralQ : QueryCall := { shape := .general, ids := ["a1"], limit := some 30 }

/-- A sample extractor row carrying a fuzzy candidate name. -/
def sampleERow : ERow :=
  { id := "x1", label := some "Drug", properties := some [("name", "Aspirin")],
    candidate_name := some "aspirin" }

/-- A constant similarity function used to instantiate theorems. -/
def constSim : String → String → Rat := fun _ _ => 1

/-! ## Assembler lemmas -/

theorem seedEntries_seen_mem (ens : List Node) (seen : List String) (x : String) :
    x ∈ (seedEntries seen ens).1 ↔ x ∈ seen ∨ x ∈ ens.map Node.id := by
  induction ens generalizing seen with
  | nil => simp [seedEntries]
  | cons en rest ih =>
    by_cases h : en.id ∈ seen
    · simp only [seedEntries, if_pos h, ih, List.map_cons, List.mem_cons]
      constructor
      · rintro (hx | hx)
        · exact Or.inl hx
        · exact Or.inr (Or.inr hx)
      · rintro (hx | hx | hx)
        · exact Or.inl hx
        · exact Or.inl (hx ▸ h)
        · exact Or.inr hx
    · simp only [seedEntries, if_neg h, ih, List.mem_cons, List.map_cons]
      tauto

theorem seedEntries_nodup (ens : List Node) (seen : List String) :
    ((seedEntries seen ens).2.map Node.id).Nodup ∧
    ∀ n ∈ (seedEntries seen ens).2, n.id ∉ seen := by
  induction ens generalizing seen with
  | nil => simp [seedEntries]
  | cons en rest ih =>
    by_cases h : en.id ∈ seen
    · simpa only [seedEntries, if_pos h] using ih seen
    · have hrec := ih (en.id :: seen)
      simp only [seedEntries, if_neg h, List.map_cons, List.nodup_cons, List.mem_cons,
        List.mem_map]
      refine ⟨⟨?_, hrec.1⟩, ?_⟩
      · rintro ⟨n, hn, hid⟩
        have := hrec.2 n hn
        simp [hid] at this
      · rintro n (rfl | hn)
        · exact h
        · have := hrec.2 n hn
          intro hc
          exact this (List.mem_cons_of_mem _ hc)

theorem seedEntries_mem_ids (ens : List Node) (seen : List String) :
    ∀ en ∈ ens, en.id ∈ seen ∨ en.id ∈ (seedEntries seen ens).2.map Node.id := by
  induction ens generalizing seen with
  | nil => simp
  | cons hd rest ih =>
    intro en hen
    rcases List.mem_cons.1 hen with rfl | hen
    · by_cases h : en.id ∈ seen
      · exact Or.inl h
      · simp [seedEntries, if_neg h]
    · by_cases h : hd.id ∈ seen
      · simpa only [seedEntries, if_pos h] using ih seen en hen
      · rcases ih (hd.id :: seen) en hen with hx | hx
        · rcases List.mem_cons.1 hx with heq | hx
          · right
            simp [seedEntries, if_neg h, heq]
          · exact Or.inl hx
        · right
          simp only [seedEntries, if_neg h, List.map_cons, List.mem_cons]
          exact Or.inr hx

theorem seedEntries_sublist (ens : List Node) (seen : List String) :
    (seedEntries seen ens).2.Sublist ens := by
  induction ens generalizing seen with
  | nil => simp [seedEntries]
  | cons en rest ih =>
    by_cases h : en.id ∈ seen
    · simp only [seedEntries, if_pos h]
      exact (ih seen).cons en
    · simp only [seedEntries, if_neg h]
      exact (ih (en.id :: seen)).cons₂ en

theorem addSide_spec (seen : List String) (nidOpt labelOpt : Option String)
    (propsOpt : Option Props) :
    (((addSide seen nidOpt labelOpt propsOpt).2.map Node.id).Nodup ∧
      ∀ n ∈ (addSide seen nidOpt labelOpt propsOpt).2, n.id ∉ seen) ∧
    ∀ x, x ∈ (addSide seen nidOpt labelOpt propsOpt).1 ↔
      x ∈ seen ∨ x ∈ (addSide seen nidOpt labelOpt propsOpt).2.map Node.id := by
  cases nidOpt with
  | none => simp [addSide]
  | some nid =>
    by_cases h : nid ≠ "" ∧ nid ∉ seen
    · simp only [addSide, if_pos h]
      refine ⟨⟨by simp, ?_⟩, ?_⟩
      · intro n hn
        rcases List.mem_singleton.1 hn with rfl
        simpa [sideNode] using h.2
      · intro x
        simp [sideNode, List.mem_cons, or_comm]
    · simp only [addSide, if_neg h]
      simp

theorem rowNodes_spec (seen : List String) (row : Row) :
    (((rowNodes seen row).2.map Node.id).Nodup ∧
      ∀ n ∈ (rowNodes seen row).2, n.id ∉ seen) ∧
    ∀ x, x ∈ (rowNodes seen row).1 ↔
      x ∈ seen ∨ x ∈ (rowNodes seen row).2.map Node.id := by
  have hs := addSide_spec seen row.source_id row.source_label row.source_props
  have ht := addSide_spec (addSide seen row.source_id row.source_label row.source_props).1
    row.target_id row.target_label row.target_props
  simp only [rowNodes]
  constructor
  · constructor
    · rw [List.map_append]
      refine List.Nodup.append hs.1.1 ht.1.1 ?_
      intro x hx1 hx2
      rcases List.mem_map.1 hx2 with ⟨n, hn, rfl⟩
      exact ht.1.2 n hn ((hs.2 n.id).2 (Or.inr hx1))
    · intro n hn
      rcases List.mem_append.1 hn with hn | hn
      · exact hs.1.2 n hn
      · intro hc
        exact ht.1.2 n hn ((hs.2 n.id).2 (Or.inl hc))
  · intro x
    rw [ht.2 x, hs.2 x, List.map_append, List.mem_append]
    tauto

theorem processRows_nodup (rows : List Row) (seen : List String) :
    ((processRows seen rows).1.map Node.id).Nodup ∧
    ∀ n ∈ (processRows seen rows).1, n.id ∉ seen := by
  induction rows generalizing seen with
  | nil => simp [processRows]
  | cons row rest ih =>
    have hr := rowNodes_spec seen row
    have hrec := ih (rowNodes seen row).1
    simp only [processRows]
    constructor
    · rw [List.map_append]
      refine List.Nodup.append hr.1.1 hrec.1 ?_
      intro x hx1 hx2
      rcases List.mem_map.1 hx2 with ⟨n, hn, rfl⟩
      exact hrec.2 n hn ((hr.2 n.id).2 (Or.inr hx1))
    · intro n hn
      rcases List.mem_append.1 hn with hn | hn
      · exact hr.1.2 n hn
      · intro hc
        exact hrec.2 n hn ((hr.2 n.id).2 (Or.inl hc))

theorem buildSubgraph_nodes_spec (rows : List Row) (ens : List Node) :
    (((buildSubgraph rows ens).1.map Node.id).Nodup ∧
      ∀ en ∈ ens, en.id ∈ (buildSubgraph rows ens).1.map Node.id) ∧
    (buildSubgraph rows ens).1 =
      (seedEntries [] ens).2 ++ (processRows (seedEntries [] ens).1 rows).1 := by
  have hseed := seedEntries_nodup ens []
  have hproc := processRows_nodup rows (seedEntries [] ens).1
  have hsub : ∀ n ∈ (seedEntries [] ens).2, n.id ∈ (seedEntries [] ens).1 := by
    intro n hn
    have hmem : n ∈ ens := (seedEntries_sublist ens []).mem hn
    exact (seedEntries_seen_mem ens [] n.id).2
      (Or.inr (List.mem_map.2 ⟨n, hmem, rfl⟩))
  refine ⟨⟨?_, ?_⟩, rfl⟩
  · simp only [buildSubgraph, List.map_append]
    refine List.Nodup.append hseed.1 hproc.1 ?_
    intro x hx1 hx2
    rcases List.mem_map.1 hx1 with ⟨n, hn, rfl⟩
    rcases List.mem_map.1 hx2 with ⟨m, hm, hid⟩
    exact hproc.2 m hm (hid ▸ hsub n hn)
  · intro en hen
    rcases seedEntries_mem_ids ens [] en hen with hx | hx
    · simp at hx
    · simp only [buildSubgraph, List.map_append, List.mem_append]
      exact Or.inl hx

theorem traverse_ok_nodes (store : Store) (patterns : List (String × Pattern))
    (gl : Nat) (ens : List Node) (intent : String) (sg : Subgraph)
    (qs : List QueryCall)
    (h : traverse store patterns gl ens intent = (.ok sg, qs)) :
    ∃ rows, sg.nodes = (buildSubgraph rows ens).1 := by
  by_cases hempty : ens = []
  · subst hempty
    simp only [traverse, if_pos rfl] at h
    obtain ⟨h1, -⟩ := Prod.mk.injEq .. ▸ h
    cases h1
    exact ⟨[], rfl⟩
  · simp only [traverse, if_neg hempty] at h
    rcases hrun : runStrategy store gl
        (match patterns.lookup intent with
          | some p => if p = emptyPattern then "general" else p.strategy.getD "targeted"
          | none => "general")
        (ens.map Node.id) ((patterns.lookup intent).getD emptyPattern) with e | triple
    · rw [hrun] at h
      simp at h
    · rw [hrun] at h
      obtain ⟨qs2, rows, hop⟩ := triple
      simp only [Prod.mk.injEq, Except.ok.injEq] at h
      refine ⟨rows, ?_⟩
      rw [← h.1]

/-- Dispatch form of a non-degenerate `traverse` call: with a non-empty entry
list and a truthy registry entry, the call runs the strategy named by the
pattern and assembles the subgraph from the rows it obtained. -/
theorem traverse_dispatch (store : Store) (patterns : List (String × Pattern))
    (gl : Nat) (ens : List Node) (intent : String) (p : Pattern)
    (h0 : ens ≠ []) (hp : patterns.lookup intent = some p) (hne : p ≠ emptyPattern) :
    traverse store patterns gl ens intent =
      match runStrategy store gl (p.strategy.getD "targeted") (ens.map Node.id) p with
      | .error e => (.error e, [])
      | .ok (qs, rows, hop) =>
        (.ok { nodes := (buildSubgraph rows ens).1,
               relationships := (buildSubgraph rows ens).2,
               strategy := p.strategy.getD "targeted", hop_depth := hop }, qs) := by
  simp only [traverse, if_neg h0, hp, Option.getD_some, if_neg hne]

/-! ## Claim theorems -/

/-- C1: every successful `traverse` call — for any store row set — returns a
subgraph whose node ids contain no duplicates, in which every supplied entry
node's id appears, and whose node list starts with the entry nodes seeded
first, in the order given, deduplicated by id. -/
theorem traverse_node_id_invariants (store : Store) (patterns : List (String × Pattern))
    (gl : Nat) (ens : List Node) (intent : String) (sg : Subgraph) (qs : List QueryCall)
    (h : traverse store patterns gl ens intent = (.ok sg, qs)) :
    (sg.nodes.map Node.id).Nodup ∧
    (∀ en ∈ ens, en.id ∈ sg.nodes.map Node.id) ∧
    (∃ rest, sg.nodes = (seedEntries [] ens).2 ++ rest) ∧
    (seedEntries [] ens).2.Sublist ens ∧
    ∀ en ∈ ens, en.id ∈ (seedEntries [] ens).2.map Node.id := by
  obtain ⟨rows, hn⟩ := traverse_ok_nodes store patterns gl ens intent sg qs h
  have hb := buildSubgraph_nodes_spec rows ens
  rw [hn]
  refine ⟨hb.1.1, hb.1.2, ⟨_, hb.2⟩, seedEntries_sublist ens [], ?_⟩
  intro en hen
  rcases seedEntries_mem_ids ens [] en hen with hx | hx
  · simp at hx
  · exact hx

theorem traverse_node_id_invariants_witness :
    traverse (fun _ => []) [] 30 [sampleEntryA] "overview" =
      (.ok sampleSubgraphGeneral, [sampleGeneralQ]) ∧
    ((sampleSubgraphGeneral.nodes.map Node.id).Nodup ∧
      (∀ en ∈ [sampleEntryA], en.id ∈ sampleSubgraphGeneral.nodes.map Node.id) ∧
      (∃ rest, sampleSubgraphGeneral.nodes = (seedEntries [] [sampleEntryA]).2 ++ rest) ∧
      (seedEntries [] [sampleEntryA]).2.Sublist [sampleEntryA] ∧
      ∀ en ∈ [sampleEntryA], en.id ∈ (seedEntries [] [sampleEntryA]).2.map Node.id) :=
  ⟨rfl, traverse_node_id_invariants (fun _ => []) [] 30 [sampleEntryA] "overview"
    sampleSubgraphGeneral [sampleGeneralQ] rfl⟩

/-- C2: a `traverse` call with an empty entry list returns exactly the
canonical empty subgraph (`strategy="none"`, `hop_depth=0`), issues no store
query, and — since the equation holds for every registry and store — does so
without consulting either. -/
theorem traverse_empty_entry (store : Store) (patterns : List (String × Pattern))
    (gl : Nat) (intent : String) :
    traverse store patterns gl [] intent =
      (.ok { nodes := [], relationships := [], strategy := "none", hop_depth := 0 },
       []) := rfl

/-- C3: a `shortest_path` traversal call with fewer than two entry ids issues
exactly one variable-hop-shaped query with `min_hops=1` and `max_hops` taken
from the pattern (default 6), and never issues a shortest-path query. -/
theorem shortest_path_degrades (store : Store) (patterns : List (String × Pattern))
    (gl : Nat) (ens : List Node) (intent : String) (p : Pattern)
    (h0 : ens ≠ []) (hp : patterns.lookup intent = some p)
    (hs : p.strategy = some "shortest_path") (hlen : ens.length < 2) :
    (traverse store patterns gl ens intent).2 =
      [{ shape := .variableHop, ids := ens.map Node.id, minHops := some 1,
         maxHops := some (p.max_hops.getD 6), limit := some 60 }] ∧
    ∀ q ∈ (traverse store patterns gl ens intent).2,
      q.shape ≠ CypherShape.shortestPath := by
  have hne : p ≠ emptyPattern := by
    intro hc
    rw [hc] at hs
    simp [emptyPattern] at hs
  rw [traverse_dispatch store patterns gl ens intent p h0 hp hne, hs]
  have hlt : (ens.map Node.id).length < 2 := by simpa using hlen
  simp only [Option.getD_some, runStrategy, shortestPathStrat, variableHopStrat,
    if_pos hlt]
  constructor
  · simp
  · intro q hq
    simp at hq
    subst hq
    simp

theorem shortest_path_degrades_witness :
    ([("connect", spPattern)].lookup "connect" = some spPattern) ∧
    spPattern.strategy = some "shortest_path" ∧
    ([sampleEntryA] : List Node).length < 2 ∧
    ((traverse (fun _ => []) [("connect", spPattern)] 30 [sampleEntryA] "connect").2 =
      [{ shape := .variableHop, ids := [sampleEntryA].map Node.id, minHops := some 1,
         maxHops := some (spPattern.max_hops.getD 6), limit := some 60 }] ∧
     ∀ q ∈ (traverse (fun _ => []) [("connect", spPattern)] 30 [sampleEntryA] "connect").2,
       q.shape ≠ CypherShape.shortestPath) :=
  ⟨rfl, rfl, by decide,
    shortest_path_degrades (fun _ => []) [("connect", spPattern)] 30 [sampleEntryA]
      "connect" spPattern (by decide) rfl rfl (by decide)⟩

/-- C6: a `traverse` call whose intent resolves to a `chained` pattern missing
its hop list fails with the configuration-error signal `KeyError "hops"`
without issuing any store query, leaves the engine state (and thus the
registry) unchanged, and subsequent calls on that state behave exactly as
calls on the original engine. -/
theorem chained_missing_hops (e : Engine) (ens : List Node) (intent : String)
    (p : Pattern) (h0 : ens ≠ []) (hp : e.patterns.lookup intent = some p)
    (hs : p.strategy = some "chained") (hh : p.hops = none) :
    (traverseCall e ens intent).1 = (.error (.keyError "hops"), []) ∧
    (traverseCall e ens intent).2 = e ∧
    ∀ ens2 intent2,
      traverseCall (traverseCall e ens intent).2 ens2 intent2 =
        traverseCall e ens2 intent2 := by
  have hne : p ≠ emptyPattern := by
    intro hc
    rw [hc] at hs
    simp [emptyPattern] at hs
  refine ⟨?_, rfl, fun _ _ => rfl⟩
  show traverse e.store e.patterns e.generalLimit ens intent = _
  rw [traverse_dispatch e.store e.patterns e.generalLimit ens intent p h0 hp hne, hs]
  simp [runStrategy, chainedStrat, hh]

theorem chained_missing_hops_witness :
    (sampleEngine.patterns.lookup "mechanism" = some chainedNoHops) ∧
    chainedNoHops.strategy = some "chained" ∧ chainedNoHops.hops = none ∧
    ((traverseCall sampleEngine [sampleEntryA] "mechanism").1 =
      (.error (.keyError "hops"), []) ∧
     (traverseCall sampleEngine [sampleEntryA] "mechanism").2 = sampleEngine ∧
     ∀ ens2 intent2,
       traverseCall (traverseCall sampleEngine [sampleEntryA] "mechanism").2 ens2 intent2 =
         traverseCall sampleEngine ens2 intent2) :=
  ⟨rfl, rfl, rfl,
    chained_missing_hops sampleEngine [sampleEntryA] "mechanism" chainedNoHops
      (by decide) rfl rfl rfl⟩

/-- C8: every `shared_neighbor` traversal call issues its query with the
effective minimum-connections parameter equal to
`min(configured min_connections (default 2), number of entry ids)`. -/
theorem shared_neighbor_min_conn (store : Store) (patterns : List (String × Pattern))
    (gl : Nat) (ens : List Node) (intent : String) (p : Pattern)
    (h0 : ens ≠ []) (hp : patterns.lookup intent = some p)
    (hs : p.strategy = some "shared_neighbor") :
    (traverse store patterns gl ens intent).2 =
      [{ shape := .sharedNeighbor, ids := ens.map Node.id,
         minConn := some (min (p.min_connections.getD 2) ens.length) }] := by
  have hne : p ≠ emptyPattern := by
    intro hc
    rw [hc] at hs
    simp [emptyPattern] at hs
  rw [traverse_dispatch store patterns gl ens intent p h0 hp hne, hs]
  simp [runStrategy, sharedNeighborStrat]

theorem shared_neighbor_min_conn_witness :
    ([("common", snPattern)].lookup "common" = some snPattern) ∧
    snPattern.strategy = some "shared_neighbor" ∧
    (traverse (fun _ => []) [("common", snPattern)] 30 [sampleEntryA, sampleEntryB]
        "common").2 =
      [{ shape := .sharedNeighbor, ids := [sampleEntryA, sampleEntryB].map Node.id,
         minConn := some (min (snPattern.min_connections.getD 2)
           ([sampleEntryA, sampleEntryB] : List Node).length) }] :=
  ⟨rfl, rfl,
    shared_neighbor_min_conn (fun _ => []) [("common", snPattern)] 30
      [sampleEntryA, sampleEntryB] "common" snPattern (by decide) rfl rfl⟩

/-- C10: a `variable_hop` traversal call whose pattern omits `min_hops` or
`max_hops` does not raise a configuration error: it silently defaults the
missing bounds to `min_hops=1` and `max_hops=2`, issues the query with those
bounds, and reports `hop_depth` equal to the (possibly defaulted) `max_hops`. -/
theorem variable_hop_defaults (store : Store) (patterns : List (String × Pattern))
    (gl : Nat) (ens : List Node) (intent : String) (p : Pattern)
    (h0 : ens ≠ []) (hp : patterns.lookup intent = some p)
    (hs : p.strategy = some "variable_hop")
    (_hmiss : p.min_hops = none ∨ p.max_hops = none) :
    (∃ sg, (traverse store patterns gl ens intent).1 = .ok sg ∧
      sg.hop_depth = p.max_hops.getD 2 ∧ sg.strategy = "variable_hop") ∧
    (traverse store patterns gl ens intent).2 =
      [{ shape := .variableHop, ids := ens.map Node.id,
         minHops := some (p.min_hops.getD 1), maxHops := some (p.max_hops.getD 2),
         limit := some 60 }] := by
  have hne : p ≠ emptyPattern := by
    intro hc
    rw [hc] at hs
    simp [emptyPattern] at hs
  rw [traverse_dispatch store patterns gl ens intent p h0 hp hne, hs]
  simp [runStrategy, variableHopStrat]

/-- Edge lists of the per-row loop for well-shaped rows: one edge per row. -/
theorem processRows_edges (rows : List Row)
    (hw : ∀ row ∈ rows, truthyOptStr row.source_id = true ∧
      truthyOptStr row.target_id = true) :
    ∀ seen, (processRows seen rows).2 = rows.map rowEdgeMk := by
  induction rows with
  | nil => intro seen; simp [processRows]
  | cons row rest ih =>
    intro seen
    have h1 := hw row (by simp)
    simp only [processRows, List.map_cons]
    rw [ih (fun r hr => hw r (by simp [hr])) _]
    simp [rowEdge, h1.1, h1.2]

/-- C5 (counterexample): for a row whose `source_id` is missing the assembler
appends no edge at all, so "exactly one edge is appended per row" fails for
arbitrary row lists. -/
theorem build_subgraph_edge_per_row_cex :
    (buildSubgraph [badRow] []).2.length ≠ ([badRow] : List Row).length := by decide

/-- C5 (amended): for every row list whose rows carry truthy source and target
ids — the row shape every strategy query returns — and every entry-node list,
the assembler appends exactly one edge per row, in row order, without
deduplication: duplicate rows yield duplicate edges. -/
theorem build_subgraph_edges_map (rows : List Row) (ens : List Node)
    (hw : ∀ row ∈ rows, truthyOptStr row.source_id = true ∧
      truthyOptStr row.target_id = true) :
    (buildSubgraph rows ens).2 = rows.map rowEdgeMk := by
  simp only [buildSubgraph]
  exact processRows_edges rows hw _

theorem build_subgraph_edges_map_witness :
    (∀ row ∈ [sampleRow, sampleRow], truthyOptStr row.source_id = true ∧
      truthyOptStr row.target_id = true) ∧
    (buildSubgraph [sampleRow, sampleRow] [sampleEntryA]).2 =
      [sampleRow, sampleRow].map rowEdgeMk :=
  ⟨by decide, build_subgraph_edges_map [sampleRow, sampleRow] [sampleEntryA] (by decide)⟩

/-- First-seen deduplication on an empty seen set keeps the head, so it never
empties a non-empty list. -/
theorem dedupFirstAux_ne_nil (l : List String) (h : l ≠ []) :
    dedupFirstAux [] l ≠ [] := by
  cases l with
  | nil => exact absurd rfl h
  | cons p ps => simp [dedupFirstAux]

/-- C4 (counterexample): the query "!" is neither empty nor whitespace-only,
yet candidate generation returns the empty list, because normalization erases
every character. -/
theorem extract_keywords_nonempty_cex :
    ("!" : String) ≠ "" ∧ isBlank "!" = false ∧
    extractKeywords defaultStopWords "!" = [] := by decide

/-- C4 (amended): for every stop-word list and every query whose normalization
yields at least one token, candidate generation returns a non-empty list, even
when every token is a stop-word (the fall-back then reinstates the unfiltered
tokens). -/
theorem extract_keywords_nonempty (sw : List String) (q : String)
    (h : tokenize q ≠ []) : extractKeywords sw q ≠ [] := by
  have hc : contentTokens sw q ≠ [] := by
    simp only [contentTokens]
    split
    · exact h
    · next hne => exact hne
  simp only [extractKeywords]
  apply dedupFirstAux_ne_nil
  intro hnil
  have h1 : nGrams (contentTokens sw q) 1 = [] := by
    rcases List.append_eq_nil.1 hnil with ⟨-, h1⟩
    exact h1
  have : (contentTokens sw q).length = 0 := by
    simpa [nGrams] using congrArg List.length h1
  exact hc (List.length_eq_zero.1 this)

theorem extract_keywords_nonempty_witness :
    tokenize "the of and" ≠ [] ∧
    extractKeywords defaultStopWords "the of and" ≠ [] ∧
    (∀ t ∈ tokenize "the of and", t ∈ defaultStopWords) :=
  ⟨by decide, extract_keywords_nonempty defaultStopWords "the of and" (by decide),
    by decide⟩

theorem variable_hop_defaults_witness :
    ([("explore", vhPattern)].lookup "explore" = some vhPattern) ∧
    vhPattern.strategy = some "variable_hop" ∧ vhPattern.min_hops = none ∧
    ((∃ sg, (traverse (fun _ => []) [("explore", vhPattern)] 30 [sampleEntryA]
        "explore").1 = .ok sg ∧
      sg.hop_depth = vhPattern.max_hops.getD 2 ∧ sg.strategy = "variable_hop") ∧
     (traverse (fun _ => []) [("explore", vhPattern)] 30 [sampleEntryA] "explore").2 =
      [{ shape := .variableHop, ids := [sampleEntryA].map Node.id,
         minHops := some (vhPattern.min_hops.getD 1),
         maxHops := some (vhPattern.max_hops.getD 2), limit := some 60 }]) :=
  ⟨rfl, rfl, rfl,
    variable_hop_defaults (fun _ => []) [("explore", vhPattern)] 30 [sampleEntryA]
      "explore" vhPattern (by decide) rfl rfl (Or.inl rfl)⟩

/-! ## Candidate-ordering lemmas for the n-gram pipeline -/

theorem spaceCount_append (a b : String) :
    spaceCount (a ++ b) = spaceCount a + spaceCount b := by
  simp [spaceCount, String.data_append, List.countP_append]

theorem joinTokens_spaceCount :
    ∀ ts : List String, ts ≠ [] → (∀ t ∈ ts, spaceCount t = 0) →
      spaceCount (joinTokens ts) = ts.length - 1 := by
  intro ts
  induction ts with
  | nil => intro h; exact absurd rfl h
  | cons t rest ih =>
    intro _ hsp
    cases rest with
    | nil => simpa [joinTokens] using hsp t (by simp)
    | cons u urest =>
      have hr := ih (by simp) (fun s hs => hsp s (List.mem_cons_of_mem _ hs))
      have hs1 : spaceCount " " = 1 := rfl
      show spaceCount (t ++ " " ++ joinTokens (u :: urest)) = _
      rw [spaceCount_append, spaceCount_append, hsp t (by simp), hs1, hr]
      simp
      omega

theorem splitWsAux_no_ws :
    ∀ (cs acc : List Char), (∀ c ∈ acc, c.isWhitespace = false) →
      ∀ r ∈ splitWsAux cs acc, ∀ c ∈ r, c.isWhitespace = false := by
  intro cs
  induction cs with
  | nil =>
    intro acc hacc r hr
    simp only [splitWsAux] at hr
    split at hr
    · simp at hr
    · rw [List.mem_singleton] at hr
      intro c hc
      exact hacc c (List.mem_reverse.1 (hr ▸ hc))
  | cons c cs ih =>
    intro acc hacc r hr
    simp only [splitWsAux] at hr
    by_cases hw : c.isWhitespace = true
    · rw [if_pos hw] at hr
      split at hr
      · exact ih [] (by simp) r hr
      · rcases List.mem_cons.1 hr with rfl | hr2
        · intro ch hch
          exact hacc ch (List.mem_reverse.1 hch)
        · exact ih [] (by simp) r hr2
    · rw [if_neg hw] at hr
      refine ih (c :: acc) ?_ r hr
      intro ch hch
      rcases List.mem_cons.1 hch with rfl | hch2
      · simpa using hw
      · exact hacc ch hch2

theorem tokenize_spaceCount (q : String) : ∀ t ∈ tokenize q, spaceCount t = 0 := by
  intro t ht
  rcases List.mem_map.1 ht with ⟨r, hr, rfl⟩
  have hnw := splitWsAux_no_ws (q.data.map normalizeChar) [] (by simp) r hr
  simp only [spaceCount]
  rw [List.countP_eq_zero]
  intro c hc
  have hcr : c ∈ r := hc
  have := hnw c hcr
  simp only [decide_eq_true_eq]
  intro hce
  subst hce
  simp at this

theorem contentTokens_mem (sw : List String) (q : String) :
    ∀ t ∈ contentTokens sw q, t ∈ tokenize q := by
  intro t ht
  simp only [contentTokens] at ht
  split at ht
  · exact ht
  · exact (List.mem_filter.1 ht).1

theorem nGrams_mem (toks : List String) (n j : Nat) (hj : j < toks.length + 1 - n) :
    joinTokens ((toks.drop j).take n) ∈ nGrams toks n :=
  List.mem_map.2 ⟨j, List.mem_range.2 hj, rfl⟩

theorem nGrams_spaceCount (toks : List String)
    (hsp : ∀ t ∈ toks, spaceCount t = 0) (n : Nat) (hn : 0 < n) :
    ∀ x ∈ nGrams toks n, spaceCount x = n - 1 := by
  intro x hx
  rcases List.mem_map.1 hx with ⟨j, hj, rfl⟩
  have hj2 := List.mem_range.1 hj
  have hlen : ((toks.drop j).take n).length = n := by
    rw [List.length_take, List.length_drop]
    omega
  have hne : (toks.drop j).take n ≠ [] := by
    intro hc
    rw [hc] at hlen
    simp at hlen
    omega
  rw [joinTokens_spaceCount _ hne ?_, hlen]
  intro t ht
  exact hsp t (((List.take_sublist _ _).trans (List.drop_sublist _ _)).subset ht)

theorem dedupFirstAux_mem (x : String) :
    ∀ (l seen : List String), x ∈ dedupFirstAux seen l ↔ x ∉ seen ∧ x ∈ l := by
  intro l
  induction l with
  | nil => simp [dedupFirstAux]
  | cons p ps ih =>
    intro seen
    by_cases hp : p ∈ seen
    · simp only [dedupFirstAux, if_pos hp, ih, List.mem_cons]
      constructor
      · rintro ⟨h1, h2⟩
        exact ⟨h1, Or.inr h2⟩
      · rintro ⟨h1, rfl | h2⟩
        · exact absurd hp h1
        · exact ⟨h1, h2⟩
    · simp only [dedupFirstAux, if_neg hp, List.mem_cons, ih]
      constructor
      · rintro (rfl | ⟨h1, h2⟩)
        · exact ⟨hp, Or.inl rfl⟩
        · exact ⟨fun hc => h1 (Or.inr hc), Or.inr h2⟩
      · rintro ⟨h1, rfl | h2⟩
        · exact Or.inl rfl
        · by_cases hxp : x = p
          · exact Or.inl hxp
          · exact Or.inr ⟨by simp [hxp, h1], h2⟩

theorem dedupFirstAux_indexOf_lt (x y : String) (hxy : x ≠ y) :
    ∀ (l seen : List String), x ∈ l → y ∈ l → x ∉ seen → y ∉ seen →
      l.indexOf x < l.indexOf y →
      (dedupFirstAux seen l).indexOf x < (dedupFirstAux seen l).indexOf y := by
  intro l
  induction l with
  | nil => intro seen hx; simp at hx
  | cons p ps ih =>
    intro seen hx hy hxs hys hidx
    by_cases hp : p ∈ seen
    · have hpx : p ≠ x := fun h => hxs (h ▸ hp)
      have hpy : p ≠ y := fun h => hys (h ▸ hp)
      have hx2 : x ∈ ps := by
        rcases List.mem_cons.1 hx with rfl | h2
        · exact absurd rfl hpx
        · exact h2
      have hy2 : y ∈ ps := by
        rcases List.mem_cons.1 hy with rfl | h2
        · exact absurd rfl hpy
        · exact h2
      have hidx2 : ps.indexOf x < ps.indexOf y := by
        rw [List.indexOf_cons_ne _ hpx, List.indexOf_cons_ne _ hpy] at hidx
        exact Nat.succ_lt_succ_iff.1 hidx
      simpa only [dedupFirstAux, if_pos hp] using ih seen hx2 hy2 hxs hys hidx2
    · simp only [dedupFirstAux, if_neg hp]
      by_cases hpx : p = x
      · subst hpx
        rw [List.indexOf_cons_self, List.indexOf_cons_ne _ hxy]
        exact Nat.succ_pos _
      · by_cases hpy : p = y
        · subst hpy
          rw [List.indexOf_cons_self] at hidx
          exact absurd hidx (Nat.not_lt_zero _)
        · have hx2 : x ∈ ps := by
            rcases List.mem_cons.1 hx with rfl | h2
            · exact absurd rfl hpx
            · exact h2
          have hy2 : y ∈ ps := by
            rcases List.mem_cons.1 hy with rfl | h2
            · exact absurd rfl hpy
            · exact h2
          have hidx2 : ps.indexOf x < ps.indexOf y := by
            rw [List.indexOf_cons_ne _ hpx, List.indexOf_cons_ne _ hpy] at hidx
            exact Nat.succ_lt_succ_iff.1 hidx
          rw [List.indexOf_cons_ne _ hpx, List.indexOf_cons_ne _ hpy]
          refine Nat.succ_lt_succ (ih (p :: seen) hx2 hy2 ?_ ?_ hidx2)
          · intro hc
            rcases List.mem_cons.1 hc with rfl | hc2
            · exact hpx rfl
            · exact hxs hc2
          · intro hc
            rcases List.mem_cons.1 hc with rfl | hc2
            · exact hpy rfl
            · exact hys hc2

theorem indexOf_append_lt (l1 l2 : List String) (x y : String)
    (hx : x ∈ l1) (hy : y ∉ l1) :
    (l1 ++ l2).indexOf x < (l1 ++ l2).indexOf y := by
  rw [List.indexOf_append_of_mem hx, List.indexOf_append_of_not_mem hy]
  calc l1.indexOf x < l1.length := List.indexOf_lt_length.2 hx
    _ ≤ l1.length + l2.indexOf y := Nat.le_add_right _ _

/-- An in-range trigram phrase strictly precedes any in-range shorter n-gram
phrase in the concatenated, first-seen-deduplicated candidate list, because
space counts separate the blocks. -/
theorem trigram_block_indexOf (toks : List String)
    (hsp : ∀ t ∈ toks, spaceCount t = 0) (i n k : Nat)
    (hi : i + 3 ≤ toks.length) (hn1 : 0 < n) (hn3 : n < 3)
    (hk : k + n ≤ toks.length) :
    joinTokens ((toks.drop i).take 3) ∈
      dedupFirstAux [] (nGrams toks 3 ++ nGrams toks 2 ++ nGrams toks 1) ∧
    joinTokens ((toks.drop k).take n) ∈
      dedupFirstAux [] (nGrams toks 3 ++ nGrams toks 2 ++ nGrams toks 1) ∧
    (dedupFirstAux [] (nGrams toks 3 ++ nGrams toks 2 ++ nGrams toks 1)).indexOf
        (joinTokens ((toks.drop i).take 3)) <
      (dedupFirstAux [] (nGrams toks 3 ++ nGrams toks 2 ++ nGrams toks 1)).indexOf
        (joinTokens ((toks.drop k).take n)) := by
  have htri3 : joinTokens ((toks.drop i).take 3) ∈ nGrams toks 3 :=
    nGrams_mem toks 3 i (by omega)
  have hyn : joinTokens ((toks.drop k).take n) ∈ nGrams toks n :=
    nGrams_mem toks n k (by omega)
  have htrisp := nGrams_spaceCount toks hsp 3 (by omega) _ htri3
  have hysp := nGrams_spaceCount toks hsp n hn1 _ hyn
  have hxy : joinTokens ((toks.drop i).take 3) ≠ joinTokens ((toks.drop k).take n) := by
    intro hc
    rw [hc, hysp] at htrisp
    omega
  have hynot3 : joinTokens ((toks.drop k).take n) ∉ nGrams toks 3 := by
    intro hc
    have h3 := nGrams_spaceCount toks hsp 3 (by omega) _ hc
    rw [hysp] at h3
    omega
  have hyrest : joinTokens ((toks.drop k).take n) ∈ nGrams toks 2 ++ nGrams toks 1 := by
    interval_cases n
    · exact List.mem_append.2 (Or.inr hyn)
    · exact List.mem_append.2 (Or.inl hyn)
  rw [List.append_assoc]
  have hxl : joinTokens ((toks.drop i).take 3) ∈
      nGrams toks 3 ++ (nGrams toks 2 ++ nGrams toks 1) :=
    List.mem_append.2 (Or.inl htri3)
  have hyl : joinTokens ((toks.drop k).take n) ∈
      nGrams toks 3 ++ (nGrams toks 2 ++ nGrams toks 1) :=
    List.mem_append.2 (Or.inr hyrest)
  have hidx := indexOf_append_lt (nGrams toks 3) (nGrams toks 2 ++ nGrams toks 1)
    _ _ htri3 hynot3
  exact ⟨(dedupFirstAux_mem _ _ _).2 ⟨by simp, hxl⟩,
         (dedupFirstAux_mem _ _ _).2 ⟨by simp, hyl⟩,
         dedupFirstAux_indexOf_lt _ _ hxy _ [] hxl hyl (by simp) (by simp) hidx⟩

/-- C7: candidate phrases are contiguous n-grams of sizes 3, then 2, then 1
over the filtered tokens, duplicates removed with first-seen order preserved
across sizes; whenever the filtered token list contains a 3-token phrase, the
trigram candidate's index strictly precedes the indices of both bigram and all
three unigram sub-candidates, all of which occur in the candidate list. -/
theorem trigram_precedes_subphrases (sw : List String) (q : String) (i : Nat)
    (hi : i + 3 ≤ (contentTokens sw q).length) :
    joinTokens (((contentTokens sw q).drop i).take 3) ∈ extractKeywords sw q ∧
    (∀ k, k = i ∨ k = i + 1 →
      joinTokens (((contentTokens sw q).drop k).take 2) ∈ extractKeywords sw q ∧
      (extractKeywords sw q).indexOf
          (joinTokens (((contentTokens sw q).drop i).take 3)) <
        (extractKeywords sw q).indexOf
          (joinTokens (((contentTokens sw q).drop k).take 2))) ∧
    (∀ k, k = i ∨ k = i + 1 ∨ k = i + 2 →
      joinTokens (((contentTokens sw q).drop k).take 1) ∈ extractKeywords sw q ∧
      (extractKeywords sw q).indexOf
          (joinTokens (((contentTokens sw q).drop i).take 3)) <
        (extractKeywords sw q).indexOf
          (joinTokens (((contentTokens sw q).drop k).take 1))) := by
  have hsp : ∀ t ∈ contentTokens sw q, spaceCount t = 0 := fun t ht =>
    tokenize_spaceCount q t (contentTokens_mem sw q t ht)
  have hkw : extractKeywords sw q =
      dedupFirstAux [] (nGrams (contentTokens sw q) 3 ++
        nGrams (contentTokens sw q) 2 ++ nGrams (contentTokens sw q) 1) := rfl
  rw [hkw]
  refine ⟨?_, ?_, ?_⟩
  · exact (trigram_block_indexOf _ hsp i 1 i hi (by omega) (by omega) (by omega)).1
  · intro k hk
    have hkb : k + 2 ≤ (contentTokens sw q).length := by omega
    exact ⟨(trigram_block_indexOf _ hsp i 2 k hi (by omega) (by omega) hkb).2.1,
           (trigram_block_indexOf _ hsp i 2 k hi (by omega) (by omega) hkb).2.2⟩
  · intro k hk
    have hkb : k + 1 ≤ (contentTokens sw q).length := by omega
    exact ⟨(trigram_block_indexOf _ hsp i 1 k hi (by omega) (by omega) hkb).2.1,
           (trigram_block_indexOf _ hsp i 1 k hi (by omega) (by omega) hkb).2.2⟩

theorem trigram_precedes_subphrases_witness :
    0 + 3 ≤ (contentTokens defaultStopWords "aspirin causes stomach bleeding").length ∧
    (joinTokens (((contentTokens defaultStopWords "aspirin causes stomach bleeding").drop 0).take 3) ∈
        extractKeywords defaultStopWords "aspirin causes stomach bleeding" ∧
     (∀ k, k = 0 ∨ k = 0 + 1 →
       joinTokens (((contentTokens defaultStopWords "aspirin causes stomach bleeding").drop k).take 2) ∈
         extractKeywords defaultStopWords "aspirin causes stomach bleeding" ∧
       (extractKeywords defaultStopWords "aspirin causes stomach bleeding").indexOf
           (joinTokens (((contentTokens defaultStopWords "aspirin causes stomach bleeding").drop 0).take 3)) <
         (extractKeywords defaultStopWords "aspirin causes stomach bleeding").indexOf
           (joinTokens (((contentTokens defaultStopWords "aspirin causes stomach bleeding").drop k).take 2))) ∧
     (∀ k, k = 0 ∨ k = 0 + 1 ∨ k = 0 + 2 →
       joinTokens (((contentTokens defaultStopWords "aspirin causes stomach bleeding").drop k).take 1) ∈
         extractKeywords defaultStopWords "aspirin causes stomach bleeding" ∧
       (extractKeywords defaultStopWords "aspirin causes stomach bleeding").indexOf
           (joinTokens (((contentTokens defaultStopWords "aspirin causes stomach bleeding").drop 0).take 3)) <
         (extractKeywords defaultStopWords "aspirin causes stomach bleeding").indexOf
           (joinTokens (((contentTokens defaultStopWords "aspirin causes stomach bleeding").drop k).take 1)))) :=
  ⟨by decide,
    trigram_precedes_subphrases defaultStopWords "aspirin causes stomach bleeding" 0
      (by decide)⟩

/-! ## Fuzzy-match lemmas -/

theorem insertDesc_mem (x z : Rat × ERow) (l : List (Rat × ERow)) :
    z ∈ insertDesc x l ↔ z = x ∨ z ∈ l := by
  induction l with
  | nil => simp [insertDesc]
  | cons y ys ih =>
    by_cases hc : x.1 < y.1
    · simp only [insertDesc, if_pos hc, List.mem_cons, ih]
      tauto
    · simp only [insertDesc, if_neg hc, List.mem_cons]

theorem insertDesc_pairwise (x : Rat × ERow) (l : List (Rat × ERow))
    (hl : l.Pairwise (fun a b => b.1 ≤ a.1)) :
    (insertDesc x l).Pairwise (fun a b => b.1 ≤ a.1) := by
  induction l with
  | nil => simp [insertDesc]
  | cons y ys ih =>
    rcases List.pairwise_cons.1 hl with ⟨hy, hys⟩
    by_cases hc : x.1 < y.1
    · simp only [insertDesc, if_pos hc]
      rw [List.pairwise_cons]
      refine ⟨?_, ih hys⟩
      intro z hz
      rcases (insertDesc_mem x z ys).1 hz with rfl | hz2
      · exact le_of_lt hc
      · exact hy z hz2
    · simp only [insertDesc, if_neg hc]
      rw [List.pairwise_cons]
      have hxy : y.1 ≤ x.1 := le_of_not_lt hc
      refine ⟨?_, hl⟩
      intro z hz
      rcases List.mem_cons.1 hz with rfl | hz2
      · exact hxy
      · exact le_trans (hy z hz2) hxy

theorem sortDesc_pairwise (l : List (Rat × ERow)) :
    (sortDesc l).Pairwise (fun a b => b.1 ≤ a.1) := by
  induction l with
  | nil => simp [sortDesc]
  | cons x xs ih => exact insertDesc_pairwise x (sortDesc xs) ih

theorem sortDesc_mem (z : Rat × ERow) (l : List (Rat × ERow)) :
    z ∈ sortDesc l ↔ z ∈ l := by
  induction l with
  | nil => simp [sortDesc]
  | cons x xs ih =>
    simp only [sortDesc, insertDesc_mem, ih, List.mem_cons]

theorem fuzzyScored_ge_thr (sim : String → String → Rat) (thr : Rat)
    (rows : List ERow) (kw : String) :
    ∀ p ∈ fuzzyScored sim thr rows kw, thr ≤ p.1 := by
  intro p hp
  rcases List.mem_filterMap.1 hp with ⟨row, _, hf⟩
  dsimp only at hf
  by_cases h1 : (row.candidate_name.getD "") = ""
  · rw [if_pos h1] at hf
    cases hf
  · rw [if_neg h1] at hf
    by_cases h2 : thr ≤ sim (strLower kw) (row.candidate_name.getD "")
    · rw [if_pos h2] at hf
      cases hf
      exact h2
    · rw [if_neg h2] at hf
      cases hf

/-- C9: the fuzzy stage runs only when the similarity capability is available
and the candidate string is longer than 3 characters — otherwise no
fuzzy-shaped query is issued at all; its pre-filter query restricts the
primary property length to within ±50% of the candidate length (integer
bounds `max(1, k - k/2)` and `k + k/2`, LIMIT 200); only rows whose
similarity ratio is at or above the configured threshold (default 0.85)
are kept; and the result is at most the top 5 of those, ordered by
descending similarity. -/
theorem fuzzy_stage_behavior (avail : Bool) (sim : String → String → Rat)
    (thr : Rat) (store : EQuery → List ERow) (kw : String) :
    (¬(avail = true ∧ 3 < kw.length) →
      ∀ q ∈ (findInGraph avail sim thr store kw).2, q.shape ≠ EShape.fuzzySim) ∧
    (fuzzyMatch sim thr store kw).2 =
      { shape := EShape.fuzzySim, minLen := some (max 1 (kw.length - kw.length / 2)),
        maxLen := some (kw.length + kw.length / 2), limit := 200 } ∧
    (fuzzyMatch sim thr store kw).1.length ≤ 5 ∧
    (∀ p ∈ sortDesc (fuzzyScored sim thr (store (fuzzyMatch sim thr store kw).2) kw),
      thr ≤ p.1) ∧
    (sortDesc (fuzzyScored sim thr (store (fuzzyMatch sim thr store kw).2) kw)).Pairwise
      (fun a b => b.1 ≤ a.1) ∧
    (fuzzyMatch sim thr store kw).1 =
      ((sortDesc (fuzzyScored sim thr
        (store (fuzzyMatch sim thr store kw).2) kw)).take 5).map
          (fun p => rowToNode p.2) ∧
    defaultFuzzyThreshold = 85 / 100 := by
  refine ⟨?_, rfl, ?_, ?_, sortDesc_pairwise _, rfl, rfl⟩
  · intro h q hq
    simp only [findInGraph] at hq
    rw [if_neg h] at hq
    split at hq
    · rw [List.mem_singleton] at hq
      subst hq
      simp [exactMatch]
    · split at hq
      · rcases List.mem_cons.1 hq with rfl | hq2
        · simp [exactMatch]
        · rw [List.mem_singleton] at hq2
          subst hq2
          simp [substrMatch]
      · rcases List.mem_cons.1 hq with rfl | hq2
        · simp [exactMatch]
        · rw [List.mem_singleton] at hq2
          subst hq2
          simp [substrMatch]
  · simp only [fuzzyMatch, List.length_map]
    exact List.length_take_le _ _
  · intro p hp
    exact fuzzyScored_ge_thr sim thr _ kw p ((sortDesc_mem p _).1 hp)

theorem fuzzy_stage_behavior_witness :
    (¬((false : Bool) = true ∧ 3 < ("aspirin" : String).length)) ∧
    ((∀ q ∈ (findInGraph false constSim defaultFuzzyThreshold
        (fun _ => [sampleERow]) "aspirin").2, q.shape ≠ EShape.fuzzySim) ∧
     (fuzzyMatch constSim defaultFuzzyThreshold
        (fun _ => [sampleERow]) "aspirin").1.length ≤ 5) :=
  ⟨by decide,
   (fuzzy_stage_behavior false constSim defaultFuzzyThreshold
      (fun _ => [sampleERow]) "aspirin").1 (by decide),
   (fuzzy_stage_behavior false constSim defaultFuzzyThreshold
      (fun _ => [sampleERow]) "aspirin").2.2.1⟩

end GraphRag
